import Mathlib

/-!
Verification of the aPLib decompressor (src/aplib.py) against its
natural-language specification.

The Python classes `BitsDecompress` and `Decompress` are shallowly embedded:
the per-instance mutable fields become an explicit state record `St`, fallible
reads return `Except DecErr`, and the two unbounded `while` loops
(`read_variablenumber`'s continuation loop and `Decompress.do`'s opcode loop)
take an explicit fuel argument (`DecErr.outOfFuel` can only arise from fuel
exhaustion, never from the embedded code itself).  The diagnostic `print`
calls and the statistics counters (`max_offset`, `max_match_length`,
`bits_count`, `bytes_count`) of the source are side-effect-only and are
dropped; they never influence control flow or output.

In Python, both a read past the end of the stream (`self.__in.read(1)[0]`)
and an out-of-range back-reference (`self.out[-offset]`) raise `IndexError`;
the embedding distinguishes them by raise site as `DecErr.endOfInput` and
`DecErr.badBackRef`, matching the error taxonomy of the specification.
-/

/-- Errors of the embedded decoder.  `endOfInput` is raised by `read_byte`
when the stream is exhausted; `badBackRef` is raised by `back_copy` when
`out[-offset]` is out of range; `outOfFuel` is an artifact of the fuel-based
embedding of the two unbounded loops. -/
inductive DecErr where
  | endOfInput : DecErr
  | badBackRef : DecErr
  | outOfFuel : DecErr
  deriving DecidableEq, Repr

/-- The mutable state of a `Decompress` instance: `__current_bit`, `__tag`,
`__tag_size`, the remaining bytes of the input stream `__in`, the output
buffer `out`, and the `Decompress` fields `__pair` and `__last_offset`. -/
structure St where
  currentBit : Nat
  tag : Nat
  tagSize : Nat
  input : List Nat
  out : List Nat
  pair : Bool
  lastOffset : Nat
  deriving DecidableEq, Repr

/-- `BitsDecompress.read_byte`: one byte straight from the stream;
`self.__in.read(1)[0]` raises on an exhausted stream. -/
def read_byte (s : St) : Except DecErr (Nat × St) :=
  match s.input with
  | [] => .error .endOfInput
  | b :: rest => .ok (b, { s with input := rest })

/-- The reload loop body of `read_bit`:
`for i in range(tag_size - 1): tag += read_byte() << (8 * (i + 1))`,
with `n` the remaining iteration count and `i` the loop index. -/
def read_tag_extra : Nat → Nat → Nat → St → Except DecErr (Nat × St)
  | 0, _, tag, s => .ok (tag, s)
  | n + 1, i, tag, s =>
    match read_byte s with
    | .error e => .error e
    | .ok (b, s₁) => read_tag_extra n (i + 1) (tag + (b <<< (8 * (i + 1)))) s₁

/-- `BitsDecompress.read_bit`: if bits remain, decrement the count; otherwise
reset the count to `tag_size*8 - 1` and reload the tag from the next
`tag_size` bytes in little-endian byte order; then extract the top bit of the
tag and shift the tag left by one.  (The Python locals are substituted in: in
the first branch the bit is extracted from the unchanged tag after the count
decrement, in the reload branch from the freshly composed tag `t₁`.) -/
def read_bit (s : St) : Except DecErr (Nat × St) :=
  if s.currentBit ≠ 0 then
    .ok ((s.tag >>> (s.tagSize * 8 - 1)) &&& 1,
      { s with currentBit := s.currentBit - 1, tag := s.tag <<< 1 })
  else
    match read_byte { s with currentBit := s.tagSize * 8 - 1 } with
    | .error e => .error e
    | .ok (t, s₂) =>
      match read_tag_extra (s₂.tagSize - 1) 0 t s₂ with
      | .error e => .error e
      | .ok (t₁, s₃) =>
        .ok ((t₁ >>> (s₃.tagSize * 8 - 1)) &&& 1, { s₃ with tag := t₁ <<< 1 })

/-- `BitsDecompress.read_fixednumber(nbbit, init=0)`: `nbbit` bits, MSB first,
folded into the accumulator `result = (result << 1) + read_bit()`. -/
def read_fixednumber : Nat → Nat → St → Except DecErr (Nat × St)
  | 0, result, s => .ok (result, s)
  | n + 1, result, s =>
    match read_bit s with
    | .error e => .error e
    | .ok (bit, s₁) => read_fixednumber n ((result <<< 1) + bit) s₁

/-- The `while self.read_bit(): result = (result << 1) + self.read_bit()`
loop of `read_variablenumber`, with fuel for the unbounded iteration. -/
def rvn_loop : Nat → Nat → St → Except DecErr (Nat × St)
  | 0, _, _ => .error .outOfFuel
  | fuel + 1, result, s =>
    match read_bit s with
    | .error e => .error e
    | .ok (c, s₁) =>
      if c ≠ 0 then
        match read_bit s₁ with
        | .error e => .error e
        | .ok (d, s₂) => rvn_loop fuel ((result <<< 1) + d) s₂
      else .ok (result, s₁)

/-- `BitsDecompress.read_variablenumber`: `result = 1`, then
`result = (result << 1) + read_bit()`, then the continuation loop. -/
def read_variablenumber (fuel : Nat) (s : St) : Except DecErr (Nat × St) :=
  match read_bit s with
  | .error e => .error e
  | .ok (b, s₁) => rvn_loop fuel ((1 <<< 1) + b) s₁

/-- The `while result < max_ and self.read_bit() == set_: result += 1` loop of
`read_setbits`, recursing on `max_ - result` which always equals the first
argument. -/
def read_setbits_aux (set_ : Nat) : Nat → Nat → St → Except DecErr (Nat × St)
  | 0, result, s => .ok (result, s)
  | remaining + 1, result, s =>
    match read_bit s with
    | .error e => .error e
    | .ok (bit, s₁) =>
      if bit = set_ then read_setbits_aux set_ remaining (result + 1) s₁
      else .ok (result, s₁)

/-- `BitsDecompress.read_setbits(max_, set_=1)`: count bits equal to `set_`,
up to `max_` reads, stopping (and consuming, without counting) the first
differing bit. -/
def read_setbits (max_ set_ : Nat) (s : St) : Except DecErr (Nat × St) :=
  read_setbits_aux set_ max_ 0 s

/-- Python semantics of `l[-offset]` for a non-negative `offset`:
`-0` is `0`, so `offset = 0` indexes element 0; for `offset ≥ 1` the index is
`len(l) - offset`, valid exactly when `offset ≤ len(l)`.  `none` corresponds
to Python raising `IndexError`, so an out-of-range access never reads memory. -/
def py_neg_index (l : List Nat) (offset : Nat) : Option Nat :=
  if offset = 0 then l[0]?
  else if offset ≤ l.length then l[l.length - offset]?
  else none

/-- `BitsDecompress.back_copy(offset, length)`:
`for i in range(length): b = self.out[-offset]; self.out.append(b)` —
byte by byte, left to right, each appended byte visible to the next read. -/
def back_copy (offset : Nat) : Nat → St → Except DecErr St
  | 0, s => .ok s
  | length + 1, s =>
    match py_neg_index s.out offset with
    | none => .error .badBackRef
    | some b => back_copy offset length { s with out := s.out ++ [b] }

/-- `BitsDecompress.read_literal(value=None)`: append either the next stream
byte (`value is None`) or the given value to the output. -/
def read_literal (value : Option Nat) (s : St) : Except DecErr St :=
  match value with
  | none =>
    match read_byte s with
    | .error e => .error e
    | .ok (b, s₁) => .ok { s₁ with out := s₁.out ++ [b] }
  | some v => .ok { s with out := s.out ++ [v] }

/-- `Decompress.length_delta(offset)`. -/
def length_delta (offset : Nat) : Nat :=
  if offset < 0x80 ∨ 0x7D00 ≤ offset then 2
  else if 0x500 ≤ offset then 1
  else 0

/-- Follows the spec's words (§4.2, Block opcode), for comparison with the
source's `length_delta`: "add 2 if `offset < 0x80` or `offset ≥ 0x7D00`; add 1
if `0x500 ≤ offset < 0x7D00`; add 0 otherwise (i.e., `0x80 ≤ offset < 0x500`)". -/
def length_delta_spec (offset : Nat) : Nat :=
  if offset < 0x80 ∨ 0x7D00 ≤ offset then 2
  else if 0x500 ≤ offset ∧ offset < 0x7D00 then 1
  else 0

/-- `Decompress.__literal`: opcode 0. -/
def op_literal (s : St) : Except DecErr (Bool × St) :=
  match read_literal none s with
  | .error e => .error e
  | .ok s₁ => .ok (false, { s₁ with pair := true })

/-- `Decompress.__block`: opcode 1, with the Python locals substituted in:
`b = read_variablenumber() - 2` is `v - 2`, and in the non-reuse branch
`offset = (b - 1 if pair else b) * 256 + read_byte()`.  The Nat subtraction
`v - 2 - 1` matches Python: the non-reuse branch is only reached with
`s₁.pair = true` when `v - 2 ≠ 0`, so the Python value is also non-negative,
and `v ≥ 2` always holds (`read_variablenumber_ge_two`). -/
def op_block (fuel : Nat) (s : St) : Except DecErr (Bool × St) :=
  match read_variablenumber fuel s with
  | .error e => .error e
  | .ok (v, s₁) =>
    if v - 2 = 0 ∧ s₁.pair = true then
      match read_variablenumber fuel s₁ with
      | .error e => .error e
      | .ok (length, s₂) =>
        match back_copy s₁.lastOffset length { s₂ with lastOffset := s₁.lastOffset } with
        | .error e => .error e
        | .ok s₃ => .ok (false, { s₃ with pair := false })
    else
      match read_byte s₁ with
      | .error e => .error e
      | .ok (lo, s₂) =>
        match read_variablenumber fuel s₂ with
        | .error e => .error e
        | .ok (length, s₃) =>
          match back_copy ((if s₁.pair then v - 2 - 1 else v - 2) * 256 + lo)
              (length + length_delta ((if s₁.pair then v - 2 - 1 else v - 2) * 256 + lo))
              { s₃ with lastOffset := (if s₁.pair then v - 2 - 1 else v - 2) * 256 + lo } with
          | .error e => .error e
          | .ok s₄ => .ok (false, { s₄ with pair := false })

/-- `Decompress.__shortblock`: opcode 2; `b ≤ 1` is the terminal condition. -/
def op_shortblock (s : St) : Except DecErr (Bool × St) :=
  match read_byte s with
  | .error e => .error e
  | .ok (b, s₁) =>
    if b ≤ 1 then .ok (true, s₁)
    else
      match back_copy (b >>> 1) (2 + (b &&& 1)) s₁ with
      | .error e => .error e
      | .ok s₂ => .ok (false, { s₂ with lastOffset := b >>> 1, pair := false })

/-- `Decompress.__singlebyte`: opcode 3. -/
def op_singlebyte (s : St) : Except DecErr (Bool × St) :=
  match read_fixednumber 4 0 s with
  | .error e => .error e
  | .ok (offset, s₁) =>
    if offset ≠ 0 then
      match back_copy offset 1 s₁ with
      | .error e => .error e
      | .ok s₂ => .ok (false, { s₂ with pair := true })
    else
      match read_literal (some 0) s₁ with
      | .error e => .error e
      | .ok s₂ => .ok (false, { s₂ with pair := true })

/-- The dispatch list `self.__functions` of `Decompress.__init__`, indexed by
the result of `read_setbits(3)` (which is always at most 3, see
`read_setbits_le`). -/
def dispatch (n : Nat) (fuel : Nat) (s : St) : Except DecErr (Bool × St) :=
  match n with
  | 0 => op_literal s
  | 1 => op_block fuel s
  | 2 => op_shortblock s
  | _ => op_singlebyte s

/-- The `while True` loop of `Decompress.do`, with fuel. -/
def do_loop : Nat → St → Except DecErr St
  | 0, _ => .error .outOfFuel
  | fuel + 1, s =>
    match read_setbits 3 1 s with
    | .error e => .error e
    | .ok (n, s₁) =>
      match dispatch n fuel s₁ with
      | .error e => .error e
      | .ok (stop, s₂) => if stop then .ok s₂ else do_loop fuel s₂

/-- The state built by `Decompress.__init__(data)` (with `tag_size = 1`). -/
def init_state (data : List Nat) : St :=
  { currentBit := 0, tag := 0, tagSize := 1, input := data,
    out := [], pair := true, lastOffset := 0 }

/-- `Decompress.do`: the unconditional initial literal, then the opcode loop;
returns the final state (whose `out` field is the decoded buffer). -/
def decomp_do (fuel : Nat) (s : St) : Except DecErr St :=
  match read_literal none s with
  | .error e => .error e
  | .ok s₁ => do_loop fuel s₁

/-- Whole-stream decoding: run `Decompress(data).do()` and return `self.out`. -/
def decompress (fuel : Nat) (data : List Nat) : Except DecErr (List Nat) :=
  match decomp_do fuel (init_state data) with
  | .error e => .error e
  | .ok s => .ok s.out

/-! ### Helper lemmas shared by the claim theorems -/

/-- `read_byte` touches only the input cursor. -/
theorem read_byte_ctx {s : St} {b : Nat} {t : St} (h : read_byte s = .ok (b, t)) :
    t.out = s.out ∧ t.pair = s.pair ∧ t.lastOffset = s.lastOffset := by
  unfold read_byte at h
  cases hin : s.input with
  | nil => rw [hin] at h; cases h
  | cons a rest =>
    rw [hin] at h
    simp only [Except.ok.injEq, Prod.mk.injEq] at h
    obtain ⟨-, ht⟩ := h
    subst ht
    exact ⟨rfl, rfl, rfl⟩

/-- The tag-reload loop touches only the input cursor. -/
theorem read_tag_extra_ctx :
    ∀ {n i tag : Nat} {s : St} {r : Nat} {t : St},
      read_tag_extra n i tag s = .ok (r, t) →
      t.out = s.out ∧ t.pair = s.pair ∧ t.lastOffset = s.lastOffset := by
  intro n
  induction n with
  | zero =>
    intro i tag s r t h
    simp only [read_tag_extra, Except.ok.injEq, Prod.mk.injEq] at h
    obtain ⟨-, ht⟩ := h
    subst ht
    exact ⟨rfl, rfl, rfl⟩
  | succ m ih =>
    intro i tag s r t h
    simp only [read_tag_extra] at h
    cases hb : read_byte s with
    | error e => rw [hb] at h; cases h
    | ok p =>
      obtain ⟨b, s₁⟩ := p
      rw [hb] at h
      obtain ⟨h1, h2, h3⟩ := read_byte_ctx hb
      obtain ⟨g1, g2, g3⟩ := ih h
      exact ⟨g1.trans h1, g2.trans h2, g3.trans h3⟩

/-- `read_bit` touches only the bit-machine fields and the input cursor. -/
theorem read_bit_ctx {s : St} {b : Nat} {t : St} (h : read_bit s = .ok (b, t)) :
    t.out = s.out ∧ t.pair = s.pair ∧ t.lastOffset = s.lastOffset := by
  unfold read_bit at h
  split at h
  · simp only [Except.ok.injEq, Prod.mk.injEq] at h
    obtain ⟨-, ht⟩ := h
    subst ht
    exact ⟨rfl, rfl, rfl⟩
  · split at h
    · cases h
    · rename_i u s₂ hb
      split at h
      · cases h
      · rename_i u₁ s₃ hx
        simp only [Except.ok.injEq, Prod.mk.injEq] at h
        obtain ⟨-, ht⟩ := h
        subst ht
        obtain ⟨h1, h2, h3⟩ := read_byte_ctx hb
        obtain ⟨g1, g2, g3⟩ := read_tag_extra_ctx hx
        exact ⟨g1.trans h1, g2.trans h2, g3.trans h3⟩

/-- The continuation loop of `read_variablenumber` touches only the
bit-machine fields and the input cursor. -/
theorem rvn_loop_ctx :
    ∀ {fuel result : Nat} {s : St} {v : Nat} {t : St},
      rvn_loop fuel result s = .ok (v, t) →
      t.out = s.out ∧ t.pair = s.pair ∧ t.lastOffset = s.lastOffset := by
  intro fuel
  induction fuel with
  | zero => intro result s v t h; cases h
  | succ m ih =>
    intro result s v t h
    simp only [rvn_loop] at h
    split at h
    · cases h
    · rename_i c s₁ hb
      obtain ⟨h1, h2, h3⟩ := read_bit_ctx hb
      split at h
      · split at h
        · cases h
        · rename_i d s₂ hb₂
          obtain ⟨g1, g2, g3⟩ := read_bit_ctx hb₂
          obtain ⟨k1, k2, k3⟩ := ih h
          exact ⟨(k1.trans g1).trans h1, (k2.trans g2).trans h2, (k3.trans g3).trans h3⟩
      · simp only [Except.ok.injEq, Prod.mk.injEq] at h
        obtain ⟨-, ht⟩ := h
        subst ht
        exact ⟨h1, h2, h3⟩

/-- `read_variablenumber` touches only the bit-machine fields and the input
cursor. -/
theorem read_variablenumber_ctx {fuel : Nat} {s : St} {v : Nat} {t : St}
    (h : read_variablenumber fuel s = .ok (v, t)) :
    t.out = s.out ∧ t.pair = s.pair ∧ t.lastOffset = s.lastOffset := by
  unfold read_variablenumber at h
  cases hb : read_bit s with
  | error e => rw [hb] at h; cases h
  | ok p =>
    obtain ⟨b, s₁⟩ := p
    rw [hb] at h
    obtain ⟨h1, h2, h3⟩ := read_bit_ctx hb
    obtain ⟨g1, g2, g3⟩ := rvn_loop_ctx h
    exact ⟨g1.trans h1, g2.trans h2, g3.trans h3⟩

/-- The continuation loop of `read_variablenumber` never shrinks the
accumulator. -/
theorem rvn_loop_ge :
    ∀ {fuel result : Nat} {s : St} {v : Nat} {t : St},
      rvn_loop fuel result s = .ok (v, t) → result ≤ v := by
  intro fuel
  induction fuel with
  | zero => intro result s v t h; cases h
  | succ m ih =>
    intro result s v t h
    simp only [rvn_loop] at h
    split at h
    · cases h
    · rename_i c s₁ hb
      split at h
      · split at h
        · cases h
        · rename_i d s₂ hb₂
          have := ih h
          have hr : result ≤ (result <<< 1) + d := by
            rw [Nat.shiftLeft_eq]
            omega
          exact hr.trans this
      · simp only [Except.ok.injEq, Prod.mk.injEq] at h
        omega

/-- The unary counter never exceeds its starting value plus the remaining
read budget. -/
theorem read_setbits_aux_le {set_ : Nat} :
    ∀ {remaining result : Nat} {s : St} {n : Nat} {t : St},
      read_setbits_aux set_ remaining result s = .ok (n, t) →
      n ≤ result + remaining := by
  intro remaining
  induction remaining with
  | zero =>
    intro result s n t h
    simp only [read_setbits_aux, Except.ok.injEq, Prod.mk.injEq] at h
    omega
  | succ m ih =>
    intro result s n t h
    simp only [read_setbits_aux] at h
    split at h
    · cases h
    · rename_i bit s₁ hb
      split at h
      · have := ih h
        omega
      · simp only [Except.ok.injEq, Prod.mk.injEq] at h
        omega

/-- The variable-length code, whenever it terminates, yields at least 2. -/
theorem read_variablenumber_ge_two {fuel : Nat} {s : St} {v : Nat} {t : St}
    (h : read_variablenumber fuel s = .ok (v, t)) : 2 ≤ v := by
  unfold read_variablenumber at h
  split at h
  · cases h
  · rename_i b s₁ hb
    have hge := rvn_loop_ge h
    have e2 : (1 : Nat) <<< 1 = 2 := rfl
    rw [e2] at hge
    omega

/-- Python `out[-0]` is `out[0]`: the head, available exactly when the list
is non-empty. -/
theorem py_neg_index_zero {l : List Nat} (h : l ≠ []) :
    py_neg_index l 0 = some (l.headD 0) := by
  cases l with
  | nil => exact absurd rfl h
  | cons a t => simp [py_neg_index]

/-- Python `out[-1]` is the last element, available exactly when the list is
non-empty. -/
theorem py_neg_index_one {l : List Nat} (h : l ≠ []) :
    py_neg_index l 1 = some (l.getLastD 0) := by
  have hl : 1 ≤ l.length := by
    cases l with
    | nil => exact absurd rfl h
    | cons a t => simp
  unfold py_neg_index
  rw [if_neg (by omega), if_pos hl, ← List.getLast?_eq_getElem?,
    List.getLastD_eq_getLast?]
  cases hgl : l.getLast? with
  | none => exact absurd (List.getLast?_eq_none_iff.mp hgl) h
  | some a => rfl

/-- Python `out[-offset]` with `offset > len(out)` raises; the read never
happens. -/
theorem py_neg_index_oob {l : List Nat} {offset : Nat} (h : l.length < offset) :
    py_neg_index l offset = none := by
  unfold py_neg_index
  rw [if_neg (by omega), if_neg (by omega)]

/-- A successful Python `out[-offset]` needs `offset ≤ len(out)`. -/
theorem py_neg_index_some_le {l : List Nat} {offset b : Nat}
    (h : py_neg_index l offset = some b) : offset ≤ l.length := by
  unfold py_neg_index at h
  split at h
  · omega
  · split at h
    · assumption
    · cases h

/-- One iteration of the `back_copy` loop: read `out[-offset]`, append it,
continue with the grown output. -/
theorem back_copy_step {offset L : Nat} {s : St} {b : Nat}
    (h : py_neg_index s.out offset = some b) :
    back_copy offset (L + 1) s = back_copy offset L { s with out := s.out ++ [b] } := by
  simp only [back_copy, h]

/-- With distance 0 and a non-empty output, every copied byte is byte 0 of
the output, so the copy appends `L` copies of the first output byte. -/
theorem back_copy_zero :
    ∀ {L : Nat} {s : St}, s.out ≠ [] →
      back_copy 0 L s = .ok { s with out := s.out ++ List.replicate L (s.out.headD 0) } := by
  intro L
  induction L with
  | zero =>
    intro s h
    simp [back_copy]
  | succ m ih =>
    intro s h
    obtain ⟨x, xs, hout⟩ := List.exists_cons_of_ne_nil h
    rw [back_copy_step (py_neg_index_zero h)]
    rw [ih (by simp)]
    simp [hout, List.replicate_succ]

/-- With distance 1, every copied byte is the byte just appended, so the copy
appends `L` copies of the last output byte. -/
theorem back_copy_one :
    ∀ {L : Nat} {s : St}, s.out ≠ [] →
      back_copy 1 L s = .ok { s with out := s.out ++ List.replicate L (s.out.getLastD 0) } := by
  intro L
  induction L with
  | zero =>
    intro s h
    simp [back_copy]
  | succ m ih =>
    intro s h
    obtain ⟨x, xs, hout⟩ := List.exists_cons_of_ne_nil h
    rw [back_copy_step (py_neg_index_one h)]
    rw [ih (by simp)]
    simp [hout, List.getLastD_concat, List.replicate_succ]
    exact Or.inr (by rw [← List.cons_append, List.getLast?_concat]; rfl)

/-- A copy of at least one byte at a distance beyond the emitted output fails
at once. -/
theorem back_copy_oob {offset L : Nat} {s : St} (h : s.out.length < offset) :
    back_copy offset (L + 1) s = .error .badBackRef := by
  simp only [back_copy, py_neg_index_oob h]

/-- A successful copy of at least one byte had distance at most the emitted
output length. -/
theorem back_copy_ok_le {offset L : Nat} {s : St} {t : St}
    (h : back_copy offset (L + 1) s = .ok t) : offset ≤ s.out.length := by
  simp only [back_copy] at h
  split at h
  · cases h
  · rename_i b hb
    exact py_neg_index_some_le hb

/-- The decrement branch of `read_bit` in closed form: with bits remaining,
the top tag bit comes out, the count drops by one, the tag shifts left. -/
theorem read_bit_dec {s : St} (h : s.currentBit ≠ 0) :
    read_bit s = .ok ((s.tag >>> (s.tagSize * 8 - 1)) &&& 1,
      { s with currentBit := s.currentBit - 1, tag := s.tag <<< 1 }) := by
  unfold read_bit
  rw [if_pos h]

/-- One iteration of the `read_fixednumber` fold. -/
theorem read_fixednumber_step {n acc : Nat} {s : St} {bit : Nat} {s₁ : St}
    (h : read_bit s = .ok (bit, s₁)) :
    read_fixednumber (n + 1) acc s = read_fixednumber n ((acc <<< 1) + bit) s₁ := by
  simp only [read_fixednumber, h]

/-- Reading `k ≤ 8` bits from a one-byte tag with at least `k` bits remaining
appends the top `k` tag bits, MSB first, to the accumulator. -/
theorem read_fixednumber_all :
    ∀ (k : Nat) (acc : Nat) (s : St), s.tagSize = 1 → k ≤ s.currentBit → k ≤ 8 →
      read_fixednumber k acc s =
        .ok (acc * 2 ^ k + s.tag / 2 ^ (8 - k) % 2 ^ k,
          { s with currentBit := s.currentBit - k, tag := s.tag <<< k }) := by
  intro k
  induction k with
  | zero =>
    intro acc s hts hcb hk8
    simp [read_fixednumber, Nat.mod_one]
  | succ k ih =>
    intro acc s hts hcb hk8
    rw [read_fixednumber_step (read_bit_dec (by omega))]
    rw [ih ((acc <<< 1) + ((s.tag >>> (s.tagSize * 8 - 1)) &&& 1))
      { s with currentBit := s.currentBit - 1, tag := s.tag <<< 1 } hts
      (show k ≤ s.currentBit - 1 by omega) (by omega)]
    simp only [Except.ok.injEq, Prod.mk.injEq]
    constructor
    · rw [hts]
      simp only [Nat.shiftLeft_eq, Nat.shiftRight_eq_div_pow, Nat.and_one_is_mod]
      norm_num
      have h8k : 8 - k = (7 - k) + 1 := by omega
      rw [h8k, pow_succ]
      have h1 : s.tag * 2 / (2 ^ (7 - k) * 2) = s.tag / 2 ^ (7 - k) := by
        rw [mul_comm (2 ^ (7 - k)) 2, mul_comm s.tag 2]
        exact Nat.mul_div_mul_left _ _ (by norm_num)
      rw [h1]
      have h2 : s.tag / 128 = s.tag / 2 ^ (7 - k) / 2 ^ k := by
        rw [Nat.div_div_eq_div_mul, ← pow_add]
        have h7 : 7 - k + k = 7 := by omega
        rw [h7]
        norm_num
      rw [h2]
      have h3 : 8 - (k + 1) = 7 - k := by omega
      rw [h3, pow_succ, Nat.mod_mul]
      ring
    · have hcb' : s.currentBit - 1 - k = s.currentBit - (k + 1) := by omega
      have htg : (s.tag <<< 1) <<< k = s.tag <<< (k + 1) := by
        rw [← Nat.shiftLeft_add, Nat.add_comm]
      simp [St.mk.injEq, hcb', htg]

/-- One iteration of the `Decompress.do` loop: select the opcode, run it,
stop or continue on its boolean result. -/
theorem do_loop_step {fuel : Nat} {s s₁ s₂ : St} {n : Nat} {stop : Bool}
    (h1 : read_setbits 3 1 s = .ok (n, s₁)) (h2 : dispatch n fuel s₁ = .ok (stop, s₂)) :
    do_loop (fuel + 1) s = if stop then .ok s₂ else do_loop fuel s₂ := by
  simp only [do_loop, h1, h2]

/-- `Decompress.do` is the initial literal followed by the opcode loop. -/
theorem decomp_do_eq {fuel : Nat} {s t : St} (h : read_literal none s = .ok t) :
    decomp_do fuel s = do_loop fuel t := by
  simp only [decomp_do, h]

/-- A successful decode returns the final state's output buffer. -/
theorem decompress_eq {fuel : Nat} {data : List Nat} {t : St}
    (h : decomp_do fuel (init_state data) = .ok t) :
    decompress fuel data = .ok t.out := by
  simp only [decompress, h]

/-- The Short Block terminal branch: a raw byte of at most 1 stops the
decode. -/
theorem op_shortblock_terminal {s : St} {b : Nat} {s₁ : St}
    (h : read_byte s = .ok (b, s₁)) (hb : b ≤ 1) :
    op_shortblock s = .ok (true, s₁) := by
  simp only [op_shortblock, h]
  rw [if_pos hb]

/-! ### Claim theorems -/

/-- C1 (counterexample): the claim "a Block opcode whose resolved distance is
0 causes the decode to fail with InvalidBackReference" is false on the code.
The stream [0x41, 0x83, 0x00, 0x00] is: initial literal 0x41; tag 0x83 =
bits 10000011, i.e. opcode `10` (Block), variable number `00` (2, so b = 0,
offset reused from `last_offset = 0`), length `00` (2); then bits `11`, a
reload to tag 0x00 giving bit `0` (opcode 110, Short Block), and terminator
byte 0x00.  The Block's resolved distance is 0, yet the whole decode
succeeds with output [0x41, 0x41, 0x41] (out[-0] reads out[0]).  The second
conjunct runs that Block opcode alone from the state with `pair = true`,
`last_offset = 0`, bits `00 00`: it returns successfully instead of
failing. -/
theorem C1_counterexample :
    decomp_do 100 (init_state [0x41, 0x83, 0x00, 0x00]) =
      .ok ⟨7, 0, 1, [], [0x41, 0x41, 0x41], false, 0⟩ ∧
    op_block 50 ⟨0, 0, 1, [0x00], [0x41], true, 0⟩ =
      .ok (false, ⟨4, 0, 1, [], [0x41, 0x41, 0x41], false, 0⟩) :=
  ⟨rfl, rfl⟩

/-- C1 (amended): a back-reference copy of at least one byte whose distance
exceeds the bytes emitted so far fails with the out-of-range index error and
the decoder never reads out of bounds to service it (the read simply does
not happen); a successful copy of at least one byte had distance at most the
output length; but a resolved distance of 0 does not fail when output is
non-empty — `out[-0]` is `out[0]`, so the copy appends copies of output
byte 0 — and fails with the same index error only on empty output. -/
theorem C1_theorem :
    (∀ (s : St) (offset L : Nat), s.out.length < offset →
      back_copy offset (L + 1) s = .error .badBackRef) ∧
    (∀ (s : St) (offset L : Nat) (t : St), back_copy offset (L + 1) s = .ok t →
      offset ≤ s.out.length) ∧
    (∀ (s : St) (L : Nat), s.out ≠ [] →
      back_copy 0 L s = .ok { s with out := s.out ++ List.replicate L (s.out.headD 0) }) ∧
    (∀ (s : St) (L : Nat), s.out = [] → back_copy 0 (L + 1) s = .error .badBackRef) := by
  refine ⟨?_, ?_, ?_, ?_⟩
  · intro s offset L h
    exact back_copy_oob h
  · intro s offset L t h
    exact back_copy_ok_le h
  · intro s L h
    exact back_copy_zero h
  · intro s L h
    have hn : py_neg_index s.out 0 = none := by rw [h]; rfl
    simp only [back_copy, hn]

/-- Witness for C1: a copy at distance 5 from a 1-byte output fails. -/
theorem C1_witness :
    ([0x41] : List Nat).length < 5 ∧
    back_copy 5 1 ⟨0, 0, 1, [], [0x41], true, 0⟩ = .error .badBackRef :=
  ⟨by norm_num, C1_theorem.1 ⟨0, 0, 1, [], [0x41], true, 0⟩ 5 0 (by norm_num)⟩

/-- C2: `read_variablenumber` decodes the bit patterns 00, 10, 0100, 1110,
111100, 01110111011100 (packed MSB-first into the bytes 0x00, 0x80, 0x40,
0xE0, 0xF0 and 0x77 0x70) to 2, 3, 4, 7, 14, 170, consuming exactly those
patterns — the final `currentBit` count and remaining `input` pin down the
exact number of bits and bytes consumed — and every terminating run returns
a value of at least 2. -/
theorem C2_theorem :
    read_variablenumber 20 (init_state [0x00]) =
      .ok (2, ⟨6, 0, 1, [], [], true, 0⟩) ∧
    read_variablenumber 20 (init_state [0x80]) =
      .ok (3, ⟨6, 0x200, 1, [], [], true, 0⟩) ∧
    read_variablenumber 20 (init_state [0x40]) =
      .ok (4, ⟨4, 0x400, 1, [], [], true, 0⟩) ∧
    read_variablenumber 20 (init_state [0xE0]) =
      .ok (7, ⟨4, 0xE00, 1, [], [], true, 0⟩) ∧
    read_variablenumber 20 (init_state [0xF0]) =
      .ok (14, ⟨2, 0x3C00, 1, [], [], true, 0⟩) ∧
    read_variablenumber 20 (init_state [0x77, 0x70]) =
      .ok (170, ⟨2, 0x1C00, 1, [], [], true, 0⟩) ∧
    (∀ (fuel : Nat) (s : St) (v : Nat) (t : St),
      read_variablenumber fuel s = .ok (v, t) → 2 ≤ v) :=
  ⟨rfl, rfl, rfl, rfl, rfl, rfl, fun _ _ _ _ h => read_variablenumber_ge_two h⟩

/-- Witness for C2: the pattern 00 decodes to 2, and 2 is at least 2. -/
theorem C2_witness :
    read_variablenumber 20 (init_state [0x00]) = .ok (2, ⟨6, 0, 1, [], [], true, 0⟩) ∧
    2 ≤ 2 :=
  ⟨rfl, C2_theorem.2.2.2.2.2.2 20 (init_state [0x00]) 2 ⟨6, 0, 1, [], [], true, 0⟩ rfl⟩

/-- C3: the Block opcode with `b = read_variablenumber() - 2`.  If `b = 0`
and `pair` holds, it reuses `offset = last_offset` and reads a length with no
correction; otherwise it decrements `b` when `pair` holds, reads the raw low
byte, forms `offset = b*256 + lo`, reads a length and adds the correction
2 / 1 / 0 exactly as the spec's table states (first conjunct: the source's
`length_delta` equals the spec's table `length_delta_spec`); both branches
then set `last_offset = offset`, back-copy `length` bytes from distance
`offset`, and clear `pair`. -/
theorem C3_theorem :
    (∀ offset : Nat, length_delta offset = length_delta_spec offset) ∧
    (∀ (fuel : Nat) (s s₁ : St) (L : Nat) (s₂ : St),
      s.pair = true →
      read_variablenumber fuel s = .ok (2, s₁) →
      read_variablenumber fuel s₁ = .ok (L, s₂) →
      op_block fuel s =
        match back_copy s₁.lastOffset L { s₂ with lastOffset := s₁.lastOffset } with
        | .error e => .error e
        | .ok s₃ => .ok (false, { s₃ with pair := false })) ∧
    (∀ (fuel : Nat) (s : St) (v : Nat) (s₁ : St) (lo : Nat) (s₂ : St) (L : Nat) (s₃ : St),
      read_variablenumber fuel s = .ok (v, s₁) →
      (v - 2 = 0 → s.pair = false) →
      read_byte s₁ = .ok (lo, s₂) →
      read_variablenumber fuel s₂ = .ok (L, s₃) →
      op_block fuel s =
        match back_copy ((if s.pair then v - 2 - 1 else v - 2) * 256 + lo)
            (L + length_delta ((if s.pair then v - 2 - 1 else v - 2) * 256 + lo))
            { s₃ with lastOffset := (if s.pair then v - 2 - 1 else v - 2) * 256 + lo } with
        | .error e => .error e
        | .ok s₄ => .ok (false, { s₄ with pair := false })) := by
  refine ⟨?_, ?_, ?_⟩
  · intro offset
    unfold length_delta length_delta_spec
    split_ifs <;> omega
  · intro fuel s s₁ L s₂ hp h1 h2
    have hpair : s₁.pair = s.pair := (read_variablenumber_ctx h1).2.1
    simp only [op_block, h1]
    rw [if_pos ⟨by norm_num, by rw [hpair, hp]⟩]
    simp only [h2]
  · intro fuel s v s₁ lo s₂ L s₃ h1 hnp h2 h3
    have hpair : s₁.pair = s.pair := (read_variablenumber_ctx h1).2.1
    simp only [op_block, h1]
    rw [if_neg (by
      rintro ⟨ha, hb⟩
      rw [hpair] at hb
      rw [hnp ha] at hb
      cases hb)]
    simp only [h2, h3, hpair]

/-- Witness for C3: the reuse branch at a concrete state — `pair` true, two
variable numbers both 2 (bits 00 00 from tag byte 0x00), `last_offset` 1 —
copies 2 bytes from distance 1. -/
theorem C3_witness :
    op_block 20 ⟨0, 0, 1, [0x00], [0x41], true, 1⟩ =
      .ok (false, ⟨4, 0, 1, [], [0x41, 0x41, 0x41], false, 1⟩) :=
  (C3_theorem.2.1 20 ⟨0, 0, 1, [0x00], [0x41], true, 1⟩ ⟨6, 0, 1, [], [0x41], true, 1⟩
    2 ⟨4, 0, 1, [], [0x41], true, 1⟩ rfl rfl rfl).trans rfl

/-- C4: the Short Block opcode reads one raw byte `b`; with `b ≤ 1` (0 and 1
alike) the opcode stops the loop at once and the accumulated output is what
`decompress` returns; with `b ≥ 2` it copies `2 + (b &&& 1)` bytes (2 or 3)
from distance `b >>> 1` (which lies in 1..127 for a byte value), then sets
`last_offset` to that distance and clears `pair`. -/
theorem C4_theorem :
    (∀ (s : St) (b : Nat) (s₁ : St), read_byte s = .ok (b, s₁) → b ≤ 1 →
      op_shortblock s = .ok (true, s₁)) ∧
    (∀ (fuel : Nat) (s s₁ : St) (b : Nat) (s₂ : St),
      read_setbits 3 1 s = .ok (2, s₁) → read_byte s₁ = .ok (b, s₂) → b ≤ 1 →
      do_loop (fuel + 1) s = .ok s₂) ∧
    (∀ (fuel : Nat) (data : List Nat) (t : St),
      decomp_do fuel (init_state data) = .ok t → decompress fuel data = .ok t.out) ∧
    (∀ (s : St) (b : Nat) (s₁ : St), read_byte s = .ok (b, s₁) → 2 ≤ b →
      op_shortblock s =
        match back_copy (b >>> 1) (2 + (b &&& 1)) s₁ with
        | .error e => .error e
        | .ok s₂ => .ok (false, { s₂ with lastOffset := b >>> 1, pair := false })) ∧
    (∀ b : Nat, 2 ≤ b → b ≤ 255 →
      1 ≤ b >>> 1 ∧ b >>> 1 ≤ 127 ∧ 2 ≤ 2 + (b &&& 1) ∧ 2 + (b &&& 1) ≤ 3) := by
  refine ⟨?_, ?_, ?_, ?_, ?_⟩
  · intro s b s₁ h hb
    exact op_shortblock_terminal h hb
  · intro fuel s s₁ b s₂ h1 h2 hb
    rw [do_loop_step h1 (show dispatch 2 fuel s₁ = .ok (true, s₂) from
      op_shortblock_terminal h2 hb)]
    rfl
  · intro fuel data t h
    exact decompress_eq h
  · intro s b s₁ h hb
    simp only [op_shortblock, h]
    rw [if_neg (by omega)]
  · intro b h1 h2
    rw [Nat.shiftRight_eq_div_pow, Nat.and_one_is_mod]
    norm_num
    omega

/-- Witness for C4: the terminator byte 0x00 stops the opcode loop. -/
theorem C4_witness :
    read_byte ⟨0, 0, 1, [0x00], [], true, 0⟩ = .ok (0, ⟨0, 0, 1, [], [], true, 0⟩) ∧
    op_shortblock ⟨0, 0, 1, [0x00], [], true, 0⟩ = .ok (true, ⟨0, 0, 1, [], [], true, 0⟩) :=
  ⟨rfl, C4_theorem.1 ⟨0, 0, 1, [0x00], [], true, 0⟩ 0 ⟨0, 0, 1, [], [], true, 0⟩
    rfl (by norm_num)⟩

/-- C5: each loop iteration selects the opcode by reading bits while they are
1, up to three reads (`read_setbits 3 1`).  Prefixes 0, 10, 110 give counts
0, 1, 2, with the terminating 0 bit consumed (the returned state is the one
after that read) but not counted; prefix 111 gives count 3 after exactly
three reads with no extra terminator consumed; the count never exceeds 3;
counts 0, 1, 2, 3 dispatch to Literal, Block, Short Block, Single Byte; and
each iteration of the decode loop is exactly this selection followed by the
selected opcode. -/
theorem C5_theorem :
    (∀ s s₁ : St, read_bit s = .ok (0, s₁) → read_setbits 3 1 s = .ok (0, s₁)) ∧
    (∀ s s₁ s₂ : St, read_bit s = .ok (1, s₁) → read_bit s₁ = .ok (0, s₂) →
      read_setbits 3 1 s = .ok (1, s₂)) ∧
    (∀ s s₁ s₂ s₃ : St, read_bit s = .ok (1, s₁) → read_bit s₁ = .ok (1, s₂) →
      read_bit s₂ = .ok (0, s₃) → read_setbits 3 1 s = .ok (2, s₃)) ∧
    (∀ s s₁ s₂ s₃ : St, read_bit s = .ok (1, s₁) → read_bit s₁ = .ok (1, s₂) →
      read_bit s₂ = .ok (1, s₃) → read_setbits 3 1 s = .ok (3, s₃)) ∧
    (∀ (s : St) (n : Nat) (t : St), read_setbits 3 1 s = .ok (n, t) → n ≤ 3) ∧
    (∀ (fuel : Nat) (s : St), dispatch 0 fuel s = op_literal s) ∧
    (∀ (fuel : Nat) (s : St), dispatch 1 fuel s = op_block fuel s) ∧
    (∀ (fuel : Nat) (s : St), dispatch 2 fuel s = op_shortblock s) ∧
    (∀ (fuel : Nat) (s : St), dispatch 3 fuel s = op_singlebyte s) ∧
    (∀ (fuel : Nat) (s : St) (n : Nat) (s₁ : St), read_setbits 3 1 s = .ok (n, s₁) →
      do_loop (fuel + 1) s =
        match dispatch n fuel s₁ with
        | .error e => .error e
        | .ok (stop, s₂) => if stop then .ok s₂ else do_loop fuel s₂) := by
  refine ⟨?_, ?_, ?_, ?_, ?_, fun _ _ => rfl, fun _ _ => rfl, fun _ _ => rfl,
    fun _ _ => rfl, ?_⟩
  · intro s s₁ h
    simp [read_setbits, read_setbits_aux, h]
  · intro s s₁ s₂ h1 h2
    simp [read_setbits, read_setbits_aux, h1, h2]
  · intro s s₁ s₂ s₃ h1 h2 h3
    simp [read_setbits, read_setbits_aux, h1, h2, h3]
  · intro s s₁ s₂ s₃ h1 h2 h3
    simp [read_setbits, read_setbits_aux, h1, h2, h3]
  · intro s n t h
    have h1 : read_setbits_aux 1 3 0 s = .ok (n, t) := h
    have := read_setbits_aux_le h1
    omega
  · intro fuel s n s₁ h
    simp only [do_loop, h]

/-- Witness for C5: the bits 110 of tag byte 0xC0 give count 2 (Short
Block), with the terminating 0 consumed. -/
theorem C5_witness :
    read_setbits 3 1 (init_state [0xC0]) = .ok (2, ⟨5, 0x600, 1, [], [], true, 0⟩) :=
  C5_theorem.2.2.1 (init_state [0xC0]) ⟨7, 0x180, 1, [], [], true, 0⟩
    ⟨6, 0x300, 1, [], [], true, 0⟩ ⟨5, 0x600, 1, [], [], true, 0⟩ rfl rfl rfl

/-- C6: `read_bit` with a nonzero remaining count decrements the count,
returns the top bit of the tag and shifts the tag; with count 0 it first
reloads the tag from the next `tag_size` bytes in little-endian byte order
(shown for `tag_size` 1 and 2) and resets the count to `tag_size*8 - 1`
before extracting; consequently with `tag_size = 1` the 8 bits of a tag byte
are delivered MSB-first: reading 8 bits as a fixed number returns the byte
itself. -/
theorem C6_theorem :
    (∀ s : St, s.currentBit ≠ 0 →
      read_bit s = .ok ((s.tag >>> (s.tagSize * 8 - 1)) &&& 1,
        { s with currentBit := s.currentBit - 1, tag := s.tag <<< 1 })) ∧
    (∀ (s : St) (b : Nat) (rest : List Nat), s.currentBit = 0 → s.tagSize = 1 →
      s.input = b :: rest →
      read_bit s = .ok ((b >>> 7) &&& 1,
        { s with currentBit := 7, tag := b <<< 1, input := rest })) ∧
    (∀ (s : St) (b₀ b₁ : Nat) (rest : List Nat), s.currentBit = 0 → s.tagSize = 2 →
      s.input = b₀ :: b₁ :: rest →
      read_bit s = .ok (((b₀ + (b₁ <<< 8)) >>> 15) &&& 1,
        { s with currentBit := 15, tag := (b₀ + (b₁ <<< 8)) <<< 1, input := rest })) ∧
    (∀ (b : Nat) (rest o : List Nat) (p : Bool) (lo t : Nat), b < 256 →
      read_fixednumber 8 0 ⟨0, t, 1, b :: rest, o, p, lo⟩ =
        .ok (b, ⟨0, b <<< 8, 1, rest, o, p, lo⟩)) := by
  refine ⟨?_, ?_, ?_, ?_⟩
  · intro s h
    exact read_bit_dec h
  · rintro ⟨cb, tg, ts, inp, o, p, lo⟩ b rest h1 h2 h3
    have h1a : cb = 0 := h1
    have h2a : ts = 1 := h2
    have h3a : inp = b :: rest := h3
    subst h1a
    subst h2a
    subst h3a
    simp [read_bit, read_byte, read_tag_extra]
  · rintro ⟨cb, tg, ts, inp, o, p, lo⟩ b₀ b₁ rest h1 h2 h3
    have h1a : cb = 0 := h1
    have h2a : ts = 2 := h2
    have h3a : inp = b₀ :: b₁ :: rest := h3
    subst h1a
    subst h2a
    subst h3a
    simp [read_bit, read_byte, read_tag_extra]
  · intro b rest o p lo t hb
    have e0 : read_bit (⟨0, t, 1, b :: rest, o, p, lo⟩ : St) =
        .ok ((b >>> 7) &&& 1, ⟨7, b <<< 1, 1, rest, o, p, lo⟩) := by
      simp [read_bit, read_byte, read_tag_extra]
    rw [show (8 : Nat) = 7 + 1 from rfl, read_fixednumber_step e0]
    rw [read_fixednumber_all 7 ((0 <<< 1) + ((b >>> 7) &&& 1))
      ⟨7, b <<< 1, 1, rest, o, p, lo⟩ rfl (Nat.le_refl 7) (by norm_num)]
    have htg : (b <<< 1) <<< 7 = b <<< 8 := by
      rw [← Nat.shiftLeft_add]
    simp only [Except.ok.injEq, Prod.mk.injEq, St.mk.injEq, htg]
    simp only [Nat.shiftLeft_eq, Nat.shiftRight_eq_div_pow, Nat.and_one_is_mod]
    norm_num
    omega

/-- Witness for C6: at count 3 and tag 0xA0 a read yields bit 1, count 2,
tag 0x140. -/
theorem C6_witness :
    read_bit ⟨3, 0xA0, 1, [], [], true, 0⟩ = .ok (1, ⟨2, 0x140, 1, [], [], true, 0⟩) :=
  C6_theorem.1 ⟨3, 0xA0, 1, [], [], true, 0⟩ (by decide)

/-- C7: `back_copy` proceeds byte by byte, left to right: each step reads
`out[-offset]` — which for `1 ≤ offset ≤ len(out)` is the element `offset`
positions before the current end — from the output as grown by the earlier
bytes of the same copy, then appends it.  Hence a distance-1 copy replicates
the last output byte; in particular, from output [0x41], a copy with
offset 1 and length 5 yields [0x41, 0x41, 0x41, 0x41, 0x41, 0x41]. -/
theorem C7_theorem :
    (∀ (offset L : Nat) (s : St) (b : Nat), py_neg_index s.out offset = some b →
      back_copy offset (L + 1) s = back_copy offset L { s with out := s.out ++ [b] }) ∧
    (∀ (l : List Nat) (offset : Nat), 1 ≤ offset → offset ≤ l.length →
      py_neg_index l offset = l[l.length - offset]?) ∧
    (∀ (L : Nat) (s : St), s.out ≠ [] →
      back_copy 1 L s = .ok { s with out := s.out ++ List.replicate L (s.out.getLastD 0) }) ∧
    back_copy 1 5 ⟨0, 0, 1, [], [0x41], true, 0⟩ =
      .ok ⟨0, 0, 1, [], [0x41, 0x41, 0x41, 0x41, 0x41, 0x41], true, 0⟩ := by
  refine ⟨?_, ?_, ?_, rfl⟩
  · intro offset L s b h
    exact back_copy_step h
  · intro l offset h1 h2
    unfold py_neg_index
    rw [if_neg (by omega), if_pos h2]
  · intro L s h
    exact back_copy_one h

/-- Witness for C7: a distance-1 copy of length 3 from output [0x41, 0x42]
replicates the last byte 0x42. -/
theorem C7_witness :
    ([0x41, 0x42] : List Nat) ≠ [] ∧
    back_copy 1 3 ⟨0, 0, 1, [], [0x41, 0x42], true, 0⟩ =
      .ok ⟨0, 0, 1, [], [0x41, 0x42, 0x42, 0x42, 0x42], true, 0⟩ :=
  ⟨by decide, C7_theorem.2.2.1 3 ⟨0, 0, 1, [], [0x41, 0x42], true, 0⟩ (by decide)⟩

/-- C8: the stream [0x2A, 0xC0, 0x00] — initial literal 0x2A, tag byte 0xC0
whose leading bits 110 select Short Block, raw terminator byte 0x00 —
decodes to exactly [0x2A] and terminates successfully, leaving any bytes
beyond those three untouched in the input (the final state's `input` is
exactly the appended suffix). -/
theorem C8_theorem (extra : List Nat) :
    decomp_do 100 (init_state (0x2A :: 0xC0 :: 0x00 :: extra)) =
      .ok ⟨5, 0x600, 1, extra, [0x2A], true, 0⟩ ∧
    decompress 100 (0x2A :: 0xC0 :: 0x00 :: extra) = .ok [0x2A] := by
  have h1 : read_literal none (init_state (0x2A :: 0xC0 :: 0x00 :: extra)) =
      .ok ⟨0, 0, 1, 0xC0 :: 0x00 :: extra, [0x2A], true, 0⟩ := rfl
  have h2 : read_setbits 3 1 (⟨0, 0, 1, 0xC0 :: 0x00 :: extra, [0x2A], true, 0⟩ : St) =
      .ok (2, ⟨5, 0x600, 1, 0x00 :: extra, [0x2A], true, 0⟩) := by
    simp [read_setbits, read_setbits_aux, read_bit, read_byte, read_tag_extra]
  have h3 : dispatch 2 99 (⟨5, 0x600, 1, 0x00 :: extra, [0x2A], true, 0⟩ : St) =
      .ok (true, ⟨5, 0x600, 1, extra, [0x2A], true, 0⟩) := rfl
  have h4 : decomp_do 100 (init_state (0x2A :: 0xC0 :: 0x00 :: extra)) =
      .ok ⟨5, 0x600, 1, extra, [0x2A], true, 0⟩ := by
    rw [decomp_do_eq h1, show (100 : Nat) = 99 + 1 from rfl, do_loop_step h2 h3]
    rfl
  exact ⟨h4, by rw [decompress_eq h4]⟩

/-- C9: a bit or byte read attempted past the end of the stream fails with
the end-of-input error: `read_byte` on an exhausted stream fails, `read_bit`
reloading on an exhausted stream fails, and the truncated stream
[0x2A, 0xC0] — cut immediately before the Short Block opcode's required raw
byte — makes the whole decode return the error, not a truncated output. -/
theorem C9_theorem :
    (∀ s : St, s.input = [] → read_byte s = .error .endOfInput) ∧
    (∀ s : St, s.input = [] → s.currentBit = 0 → read_bit s = .error .endOfInput) ∧
    decompress 100 [0x2A, 0xC0] = .error .endOfInput := by
  refine ⟨?_, ?_, rfl⟩
  · rintro ⟨cb, tg, ts, inp, o, p, lo⟩ h
    have ha : inp = [] := h
    subst ha
    rfl
  · rintro ⟨cb, tg, ts, inp, o, p, lo⟩ h1 h2
    have h1a : inp = [] := h1
    have h2a : cb = 0 := h2
    subst h1a
    subst h2a
    rfl

/-- Witness for C9: a byte read on the empty stream fails. -/
theorem C9_witness :
    (init_state []).input = [] ∧ read_byte (init_state []) = .error .endOfInput :=
  ⟨rfl, C9_theorem.1 (init_state []) rfl⟩

/-- C10: immediately after the unconditional initial literal the state has
`pair = true` and `last_offset = 0` (first conjunct), so a first Block
opcode whose variable number decodes to 2 (b = 0) takes the reuse branch
with `offset = 0`, and `back_copy(0, length)` appends `length` copies of
output byte 0 (`out[-0]` is `out[0]`): the decode proceeds with this defined
output instead of failing (second conjunct). -/
theorem C10_theorem :
    (∀ (b : Nat) (data : List Nat) (t : St),
      read_literal none (init_state (b :: data)) = .ok t →
      t.pair = true ∧ t.lastOffset = 0 ∧ t.out = [b]) ∧
    (∀ (fuel : Nat) (s s₁ : St) (L : Nat) (s₂ : St),
      s.pair = true → s.lastOffset = 0 → s.out ≠ [] →
      read_variablenumber fuel s = .ok (2, s₁) →
      read_variablenumber fuel s₁ = .ok (L, s₂) →
      op_block fuel s = .ok (false,
        { s₂ with
          out := s₂.out ++ List.replicate L (s₂.out.headD 0),
          lastOffset := 0,
          pair := false })) := by
  constructor
  · intro b data t h
    rw [show read_literal none (init_state (b :: data)) =
      .ok ⟨0, 0, 1, data, [b], true, 0⟩ from rfl] at h
    simp only [Except.ok.injEq] at h
    subst h
    exact ⟨rfl, rfl, rfl⟩
  · intro fuel s s₁ L s₂ hp hlo hout h1 h2
    obtain ⟨ho1, hp1, hl1⟩ := read_variablenumber_ctx h1
    obtain ⟨ho2, hp2, hl2⟩ := read_variablenumber_ctx h2
    have hs2out : s₂.out ≠ [] := by
      rw [ho2, ho1]
      exact hout
    simp only [op_block, h1]
    rw [if_pos ⟨by norm_num, by rw [hp1, hp]⟩]
    simp only [h2]
    rw [hl1, hlo]
    simp only [@back_copy_zero L { s₂ with lastOffset := 0 } hs2out]

/-- Witness for C10: from output [0x41], pair set, last offset 0, a Block
whose two variable numbers are both 2 (bits 00 00) appends two copies of
0x41. -/
theorem C10_witness :
    op_block 20 ⟨0, 0, 1, [0x00], [0x41], true, 0⟩ =
      .ok (false, ⟨4, 0, 1, [], [0x41, 0x41, 0x41], false, 0⟩) :=
  C10_theorem.2 20 ⟨0, 0, 1, [0x00], [0x41], true, 0⟩ ⟨6, 0, 1, [], [0x41], true, 0⟩
    2 ⟨4, 0, 1, [], [0x41], true, 0⟩ rfl rfl (by decide) rfl rfl
